import Mathlib

/-!
Verification of the AQNet pipeline: the feature-engineering stage
(Data_handling notebook: per-station linear interpolation, rolling means,
lag-1 features, backward/forward fill) and the dataset builder
(Model_Pipeline notebook: MinMax scaling and the chronological train/test
split).  Missing sensor readings (pandas NaN) are modelled as `none`;
numeric values as rationals.
-/

namespace AQNet

/-- A cell of a pollutant column: `none` models a pandas NaN. -/
abbrev Val := Option ℚ

/-- A column of the table, one entry per row. -/
abbrev Col := List Val

/-- Rounding to 4 decimal places, as in the notebook's pervasive `.round(4)`
(ties, which no claim exercises, are rounded half-up). -/
def round4 (q : ℚ) : ℚ := (round (q * 10000) : ℚ) / 10000

/-- Elementwise `.round(4)` on a column; NaN stays NaN. -/
def roundCol (c : Col) : Col := c.map (Option.map round4)

/-- The known (non-NaN) entries strictly before position `i`, with their
positions, in position order. -/
def knownBelow (c : Col) (i : ℕ) : List (ℕ × ℚ) :=
  (List.range i).filterMap fun j => (c.getD j none).map fun a => (j, a)

/-- The known (non-NaN) entries strictly after position `i`, with their
positions, in position order. -/
def knownAbove (c : Col) (i : ℕ) : List (ℕ × ℚ) :=
  (List.range (c.length - (i + 1))).filterMap fun d =>
    (c.getD (i + 1 + d) none).map fun a => (i + 1 + d, a)

/-- The nearest known entry before position `i`, if any. -/
def prevKnown (c : Col) (i : ℕ) : Option (ℕ × ℚ) := (knownBelow c i).getLast?

/-- The nearest known entry after position `i`, if any. -/
def nextKnown (c : Col) (i : ℕ) : Option (ℕ × ℚ) := (knownAbove c i).head?

/-- One cell of pandas `Series.interpolate(method='linear',
limit_direction='both')`: a known value is kept; an interior NaN is filled
linearly between its nearest known neighbours; a leading (resp. trailing)
NaN is filled from the nearest known value after (resp. before) it; a NaN
with no known neighbour at all stays NaN. -/
def interpAt (c : Col) (i : ℕ) : Val :=
  match c.getD i none with
  | some v => some v
  | none =>
    match prevKnown c i, nextKnown c i with
    | some (j, a), some (k, b) => some (a + (b - a) * (((i : ℚ) - (j : ℚ)) / ((k : ℚ) - (j : ℚ))))
    | none, some (_, b) => some b
    | some (_, a), none => some a
    | none, none => none

/-- `x.interpolate(method='linear', limit_direction='both')` on one
station's series. -/
def interpolateSeries (c : Col) : Col := (List.range c.length).map (interpAt c)

/-- Row positions of station `s`, in row order: the rows selected by
`groupby('Station_ID')` for group key `s`. -/
def groupPositions (st : List ℕ) (s : ℕ) : List ℕ :=
  (List.range st.length).filter fun r => decide (st.getD r 0 = s)

/-- The values of column `c` at station `s`'s rows: the series handed to the
per-group lambda by `groupby('Station_ID')[feature]`. -/
def seriesOf (st : List ℕ) (c : Col) (s : ℕ) : Col :=
  (groupPositions st s).map fun r => c.getD r none

/-- The sorted list of distinct station ids: pandas groupby group keys
(default `sort=True`). -/
def stationKeys (st : List ℕ) : List ℕ :=
  (List.range (st.foldr max 0 + 1)).filter fun s => decide (s ∈ st)

/-- The `.values` array of `groupby('Station_ID')[feature].apply(interpolate)`:
the interpolated per-station series concatenated in ascending group-key
order. -/
def interpValuesColumn (st : List ℕ) (c : Col) : Col :=
  (stationKeys st).flatMap fun s => interpolateSeries (seriesOf st c s)

/-- Step 5 of the notebook for one pollutant column: groupby-apply
interpolation, positional write-back via `.values`, then `.round(4)`. -/
def interpolationStep (st : List ℕ) (c : Col) : Col :=
  roundCol (interpValuesColumn st c)

/-- The trailing window of at most 7 samples ending at (and including)
position `i`. -/
def windowVals (c : Col) (i : ℕ) : List Val := (c.take (i + 1)).drop (i + 1 - 7)

/-- Mean of the known values of a window, NaN when none are known: pandas
rolling aggregation with `min_periods=1` skips NaNs and needs at least one
observation. -/
def meanOpt (l : List Val) : Val :=
  let known := l.filterMap id
  if known.isEmpty then none else some (known.sum / (known.length : ℚ))

/-- Step 6's rolling mean for one pollutant column:
`groupby("Station_ID")[feature].transform(lambda x:
x.rolling(window=7, min_periods=1).mean()).round(4)`.  `transform` is
index-aligned: row `r` receives the value computed at its own position
within its station's series. -/
def rollingStep (st : List ℕ) (c : Col) : Col :=
  roundCol <| (List.range st.length).map fun r =>
    meanOpt (windowVals (seriesOf st c (st.getD r 0))
      ((groupPositions st (st.getD r 0)).findIdx fun x => x == r))

/-- Step 6's lag feature for one pollutant column:
`groupby("Station_ID")[feature].shift(1).round(4)`.  Row `r` receives the
column value at the previous row of the same station, NaN at each
station's first row. -/
def lagStep (st : List ℕ) (c : Col) : Col :=
  roundCol <| (List.range st.length).map fun r =>
    if ((groupPositions st (st.getD r 0)).findIdx fun x => x == r) = 0 then none
    else c.getD ((groupPositions st (st.getD r 0)).getD
      ((((groupPositions st (st.getD r 0)).findIdx fun x => x == r)) - 1) 0) none

/-- `fillna(method='bfill')` on a column: each NaN takes the next valid
value below it, if any. -/
def bfillCol (c : Col) : Col :=
  (List.range c.length).map fun i =>
    match c.getD i none with
    | some v => some v
    | none => (nextKnown c i).map Prod.snd

/-- `fillna(method='ffill')` on a column: each NaN takes the last valid
value before it, if any. -/
def ffillCol (c : Col) : Col :=
  (List.range c.length).map fun i =>
    match c.getD i none with
    | some v => some v
    | none => (prevKnown c i).map Prod.snd

/-- The whole feature-engineering pipeline for one pollutant column:
step 5 interpolation, step 6 rolling mean and lag, step 7 backward fill of
the two derived columns (table-wide, with rounding), step 8 table-wide
forward fill with rounding.  Returns the final (interpolated pollutant,
rolling-mean, lag-1) columns. -/
def processColumn (st : List ℕ) (c : Col) : Col × Col × Col :=
  let ci := interpolationStep st c
  let roll := roundCol (bfillCol (rollingStep st ci))
  let lag := roundCol (bfillCol (lagStep st ci))
  (roundCol (ffillCol ci), roundCol (ffillCol roll), roundCol (ffillCol lag))

/-- The five core pollutants of the notebook's `core_features` list. -/
inductive Pollutant
  | pm25
  | pm10
  | nox
  | co
  | ozone
deriving DecidableEq

/-- A raw input table: the `Station_ID` column plus the core pollutant
columns, each possibly absent from the input schema. -/
structure RawTable where
  stations : List ℕ
  cols : Pollutant → Option Col

/-- The feature-engineering stage over the table: each loop body runs under
the guard `if feature in raw_data.columns`, so an absent column is skipped
and produces no derived columns, while each present column is processed
from its own values and the `Station_ID` column. -/
def featureEngineer (t : RawTable) : Pollutant → Option (Col × Col × Col) :=
  fun f => (t.cols f).map fun c => processColumn t.stations c

/-- Number of test samples of `train_test_split(..., test_size=0.2)`:
sklearn takes `ceil(n * test_size)`, with `test_size = 0.2` modelled as the
exact rational 1/5. -/
def testCount (n : ℕ) : ℕ := (n + 4) / 5

/-- `train_test_split(l, test_size=0.2, shuffle=False)`: the first
`n - testCount n` samples form the train partition, the rest the test
partition, order preserved. -/
def train_test_split {α : Type} (l : List α) : List α × List α :=
  (l.take (l.length - testCount l.length), l.drop (l.length - testCount l.length))

/-- Fitted data minimum of a MinMaxScaler column (0 on empty input). -/
def listMin : List ℚ → ℚ
  | [] => 0
  | x :: xs => xs.foldl min x

/-- Fitted data maximum of a MinMaxScaler column (0 on empty input). -/
def listMax : List ℚ → ℚ
  | [] => 0
  | x :: xs => xs.foldl max x

/-- `MinMaxScaler` (feature range 0..1) fit on `xs` and applied to `x`:
`(x - min) / (max - min)`, with sklearn's zero-range handling replacing the
divisor by 1 when `max = min`. -/
def mmScale (xs : List ℚ) (x : ℚ) : ℚ :=
  if listMax xs = listMin xs then x - listMin xs
  else (x - listMin xs) / (listMax xs - listMin xs)

/-- `MinMaxScaler.inverse_transform` of the scaler fit on `xs`:
`y * (max - min) + min`, with the same zero-range handling. -/
def mmInverse (xs : List ℚ) (y : ℚ) : ℚ :=
  (if listMax xs = listMin xs then y else y * (listMax xs - listMin xs)) + listMin xs

/-! General helper lemmas. -/

/-- Rounding an integer-valued rational is the identity. -/
lemma round4_intCast (n : ℤ) : round4 ((n : ℚ)) = n := by
  unfold round4
  have h : (n : ℚ) * 10000 = ((n * 10000 : ℤ) : ℚ) := by push_cast; ring
  rw [h, round_intCast]
  push_cast
  field_simp

lemma foldl_min_le_init (l : List ℚ) (a : ℚ) : l.foldl min a ≤ a := by
  induction l generalizing a with
  | nil => simp
  | cons x t ih =>
    simpa using le_trans (ih (min a x)) (min_le_left a x)

lemma foldl_min_le_mem (l : List ℚ) (a x : ℚ) (hx : x ∈ l) : l.foldl min a ≤ x := by
  induction l generalizing a with
  | nil => cases hx
  | cons y t ih =>
    rcases List.mem_cons.mp hx with rfl | hxt
    · simpa using le_trans (foldl_min_le_init t (min a x)) (min_le_right a x)
    · simpa using ih (min a y) hxt

lemma init_le_foldl_max (l : List ℚ) (a : ℚ) : a ≤ l.foldl max a := by
  induction l generalizing a with
  | nil => simp
  | cons x t ih =>
    simpa using le_trans (le_max_left a x) (ih (max a x))

lemma mem_le_foldl_max (l : List ℚ) (a x : ℚ) (hx : x ∈ l) : x ≤ l.foldl max a := by
  induction l generalizing a with
  | nil => cases hx
  | cons y t ih =>
    rcases List.mem_cons.mp hx with rfl | hxt
    · simpa using le_trans (le_max_right a x) (init_le_foldl_max t (max a x))
    · simpa using ih (max a y) hxt

lemma listMin_le_mem (xs : List ℚ) (x : ℚ) (hx : x ∈ xs) : listMin xs ≤ x := by
  cases xs with
  | nil => cases hx
  | cons y t =>
    rcases List.mem_cons.mp hx with rfl | hxt
    · exact foldl_min_le_init t x
    · exact foldl_min_le_mem t y x hxt

lemma mem_le_listMax (xs : List ℚ) (x : ℚ) (hx : x ∈ xs) : x ≤ listMax xs := by
  cases xs with
  | nil => cases hx
  | cons y t =>
    rcases List.mem_cons.mp hx with rfl | hxt
    · exact init_le_foldl_max t x
    · exact mem_le_foldl_max t y x hxt

lemma mem_groupPositions {st : List ℕ} {s r : ℕ} :
    r ∈ groupPositions st s ↔ r < st.length ∧ st.getD r 0 = s := by
  simp [groupPositions, List.mem_filter, List.mem_range]

lemma groupPositions_pairwise (st : List ℕ) (s : ℕ) :
    (groupPositions st s).Pairwise (· < ·) :=
  List.Pairwise.sublist (List.filter_sublist _) (List.pairwise_lt_range _)

lemma findIdx_getD_of_pairwise :
    ∀ (g : List ℕ), g.Pairwise (· < ·) → ∀ p, p < g.length →
      (g.findIdx fun x => x == g.getD p 0) = p := by
  intro g
  induction g with
  | nil => intro _ p hp; simp at hp
  | cons a t ih =>
    intro hpw p hp
    cases p with
    | zero => simp [List.findIdx_cons]
    | succ q =>
      have hq : q < t.length := by simpa using hp
      have hmem : t.getD q 0 ∈ t := by
        rw [List.getD_eq_getElem _ _ hq]
        exact List.getElem_mem hq
      have hne : a ≠ t.getD q 0 := ne_of_lt ((List.pairwise_cons.mp hpw).1 _ hmem)
      have hbeq : (a == t.getD q 0) = false := beq_eq_false_iff_ne.mpr hne
      have hgd : (a :: t).getD (q + 1) 0 = t.getD q 0 := rfl
      rw [hgd, List.findIdx_cons, hbeq, cond_false, ih (List.Pairwise.of_cons hpw) q hq]

lemma getD_map_range {β : Type} (f : ℕ → β) (d : β) {n r : ℕ} (h : r < n) :
    ((List.range n).map f).getD r d = f r := by
  rw [List.getD_eq_getElem _ _ (by simpa using h)]
  simp

lemma roundCol_getD : ∀ (l : Col) (i : ℕ),
    (roundCol l).getD i none = Option.map round4 (l.getD i none) := by
  intro l
  induction l with
  | nil => intro i; simp [roundCol]
  | cons x t ih =>
    intro i
    cases i with
    | zero => simp [roundCol]
    | succ j => simpa [roundCol] using ih j

lemma interpolateSeries_length (c : Col) : (interpolateSeries c).length = c.length := by
  simp [interpolateSeries]

lemma seriesOf_length (st : List ℕ) (c : Col) (s : ℕ) :
    (seriesOf st c s).length = (groupPositions st s).length := by
  simp [seriesOf]

lemma getD_mem_of_lt {g : List ℕ} {p : ℕ} (hp : p < g.length) : g.getD p 0 ∈ g := by
  rw [List.getD_eq_getElem _ _ hp]
  exact List.getElem_mem hp

lemma dropWhile_head_false {α : Type} (p : α → Bool) :
    ∀ (l : List α) {b : α} {t : List α}, l.dropWhile p = b :: t → p b = false := by
  intro l
  induction l with
  | nil => intro b t h; simp [List.dropWhile] at h
  | cons x xs ih =>
    intro b t h
    rw [List.dropWhile_cons] at h
    by_cases hx : p x = true
    · rw [if_pos hx] at h
      exact ih h
    · rw [if_neg hx] at h
      cases h
      simpa using hx

lemma flatMap_congr {α β : Type} :
    ∀ (l : List α) (f g : α → List β), (∀ a ∈ l, f a = g a) → l.flatMap f = l.flatMap g := by
  intro l f g h
  induction l with
  | nil => simp
  | cons a t ih =>
    rw [List.flatMap_cons, List.flatMap_cons, h a (List.mem_cons_self a t),
      ih fun b hb => h b (List.mem_cons_of_mem a hb)]

/-- Concatenating, over a strictly ascending key list, the key-filtered
sublists of a key-sorted list reassembles that list.  This is what makes
groupby-apply concatenation in sorted-group-key order line up positionally
with a station-sorted table. -/
lemma flatMap_filter_eq_of_sorted (key : ℕ → ℕ) :
    ∀ (K M : List ℕ), K.Pairwise (· < ·) →
      M.Pairwise (fun r r' => key r ≤ key r') →
      (∀ r ∈ M, key r ∈ K) →
      (K.flatMap fun s => M.filter fun r => decide (key r = s)) = M := by
  intro K
  induction K with
  | nil =>
    intro M _ _ hmem
    have hM : M = [] := by
      cases M with
      | nil => rfl
      | cons m t => exact absurd (hmem m (List.mem_cons_self m t)) (by simp)
    simp [hM]
  | cons k K' ih =>
    intro M hK hM hmem
    have hA : M.takeWhile (fun r => decide (key r = k)) ++
        M.dropWhile (fun r => decide (key r = k)) = M :=
      List.takeWhile_append_dropWhile _ _
    have hAk : ∀ r ∈ M.takeWhile (fun r => decide (key r = k)), key r = k := by
      intro r hr
      simpa using List.mem_takeWhile_imp hr
    have hBk : ∀ r ∈ M.dropWhile (fun r => decide (key r = k)), k < key r := by
      cases hB : M.dropWhile (fun r => decide (key r = k)) with
      | nil => simp
      | cons b t =>
        have hpb : decide (key b = k) = false := dropWhile_head_false _ M hB
        have hkb : key b ≠ k := by simpa using hpb
        have hbM : b ∈ M := List.dropWhile_sublist _ |>.subset (hB ▸ List.mem_cons_self b t)
        have hbK' : key b ∈ K' := by
          rcases List.mem_cons.mp (hmem b hbM) with h | h
          · exact absurd h hkb
          · exact h
        have hklt : k < key b := (List.pairwise_cons.mp hK).1 (key b) hbK'
        have hsor : (b :: t).Pairwise fun r r' => key r ≤ key r' :=
          hB ▸ List.Pairwise.sublist (List.dropWhile_sublist _) hM
        intro r hr
        rcases List.mem_cons.mp hr with rfl | hrt
        · exact hklt
        · exact lt_of_lt_of_le hklt ((List.pairwise_cons.mp hsor).1 r hrt)
    have hBK' : ∀ r ∈ M.dropWhile (fun r => decide (key r = k)), key r ∈ K' := by
      intro r hr
      have hrM : r ∈ M := List.dropWhile_sublist _ |>.subset hr
      rcases List.mem_cons.mp (hmem r hrM) with h | h
      · exact absurd h (by have := hBk r hr; omega)
      · exact h
    have hfk : M.filter (fun r => decide (key r = k)) =
        M.takeWhile (fun r => decide (key r = k)) := by
      conv_lhs => rw [← hA]
      rw [List.filter_append,
        List.filter_eq_self.mpr fun a ha => by simpa using hAk a ha,
        List.filter_eq_nil_iff.mpr fun a ha => by have := hBk a ha; simp; omega,
        List.append_nil]
    have hfs : ∀ s ∈ K', M.filter (fun r => decide (key r = s)) =
        (M.dropWhile (fun r => decide (key r = k))).filter fun r => decide (key r = s) := by
      intro s hs
      have hks : k < s := (List.pairwise_cons.mp hK).1 s hs
      conv_lhs => rw [← hA]
      rw [List.filter_append,
        List.filter_eq_nil_iff.mpr fun a ha => by have := hAk a ha; simp; omega,
        List.nil_append]
    rw [List.flatMap_cons, hfk,
      flatMap_congr K' _ _ hfs,
      ih (M.dropWhile fun r => decide (key r = k)) (List.Pairwise.of_cons hK)
        (List.Pairwise.sublist (List.dropWhile_sublist _) hM) hBK']
    exact hA

lemma le_foldr_max (st : List ℕ) : ∀ s ∈ st, s ≤ st.foldr max 0 := by
  induction st with
  | nil => simp
  | cons a t ih =>
    intro s hs
    rcases List.mem_cons.mp hs with rfl | h
    · exact le_max_left _ _
    · exact le_trans (ih s h) (le_max_right _ _)

lemma mem_stationKeys {st : List ℕ} {s : ℕ} : s ∈ stationKeys st ↔ s ∈ st := by
  constructor
  · intro h
    have := (List.mem_filter.mp h).2
    simpa using this
  · intro h
    refine List.mem_filter.mpr ⟨List.mem_range.mpr ?_, by simpa using h⟩
    have := le_foldr_max st s h
    omega

lemma stationKeys_pairwise (st : List ℕ) : (stationKeys st).Pairwise (· < ·) :=
  List.Pairwise.sublist (List.filter_sublist _) (List.pairwise_lt_range _)

lemma range_pairwise_key_sorted (st : List ℕ) (hs : st.Sorted (· ≤ ·)) :
    (List.range st.length).Pairwise fun r r' => st.getD r 0 ≤ st.getD r' 0 := by
  rw [List.pairwise_iff_get]
  intro i j hij
  have hi : (List.range st.length).get i < st.length := by
    have := i.isLt
    simpa using this
  have hj : (List.range st.length).get j < st.length := by
    have := j.isLt
    simpa using this
  rw [List.getD_eq_getElem _ _ hi, List.getD_eq_getElem _ _ hj]
  have hlt : (List.range st.length).get i < (List.range st.length).get j := by
    rw [List.get_eq_getElem, List.get_eq_getElem, List.getElem_range, List.getElem_range]
    simpa using hij
  exact List.Sorted.rel_get_of_lt hs (a := ⟨_, hi⟩) (b := ⟨_, hj⟩) hlt

/-- With the rows station-sorted, groupby's groups concatenated in ascending
group-key order enumerate exactly the row positions 0, 1, ..., n-1 in
order. -/
lemma flatMap_groupPositions (st : List ℕ) (hs : st.Sorted (· ≤ ·)) :
    ((stationKeys st).flatMap fun s => groupPositions st s) = List.range st.length := by
  have hmem : ∀ r ∈ List.range st.length, st.getD r 0 ∈ stationKeys st := by
    intro r hr
    rw [mem_stationKeys]
    exact getD_mem_of_lt (List.mem_range.mp hr)
  have h := flatMap_filter_eq_of_sorted (fun r => st.getD r 0) (stationKeys st)
    (List.range st.length) (stationKeys_pairwise st) (range_pairwise_key_sorted st hs) hmem
  unfold groupPositions
  exact h

/-- Positional indexing into a concatenation of per-key lists: when the
per-key index lists concatenate to a contiguous range and each per-key
value list has the length of its index list, the value written at an index
list entry is the corresponding entry of that key's value list. -/
lemma flatMap_getD_of_partition (f : ℕ → List ℕ) (g : ℕ → Col)
    (hlen : ∀ s, (g s).length = (f s).length) :
    ∀ (K : List ℕ) (a n : ℕ), K.flatMap f = List.range' a n →
      ∀ s ∈ K, ∀ p, p < (f s).length →
        (K.flatMap g).getD ((f s).getD p 0 - a) none = (g s).getD p none := by
  intro K
  induction K with
  | nil => intro a n _ s hs; cases hs
  | cons k K' ih =>
    intro a n hKf s hs p hp
    have hlenf : (f k).length + (K'.flatMap f).length = n := by
      have := congrArg List.length hKf
      simpa [List.length_range'] using this
    have hsplit : List.range' a n =
        List.range' a (f k).length ++ List.range' (a + (f k).length) (n - (f k).length) := by
      rw [List.range'_append_1]
      congr 1
      omega
    obtain ⟨hfk, hrest0⟩ :=
      List.append_inj (hKf.trans hsplit) (by simp [List.length_range'])
    have hrest : K'.flatMap f = List.range' (a + (f k).length) (n - (f k).length) := hrest0
    rcases List.mem_cons.mp hs with rfl | hsK'
    · have hidx : (f s).getD p 0 = a + p := by
        rw [hfk, List.getD_eq_getElem _ _ (by simpa [List.length_range'] using hp)]
        simp [List.getElem_range']
      rw [hidx, show a + p - a = p by omega, List.flatMap_cons,
        List.getD_append _ _ _ _ (by rw [hlen]; exact hp)]
    · have hrK : (f s).getD p 0 ∈ K'.flatMap f :=
        List.mem_flatMap.mpr ⟨s, hsK', getD_mem_of_lt hp⟩
      rw [hrest] at hrK
      have hge : a + (f k).length ≤ (f s).getD p 0 := (List.mem_range'_1.mp hrK).1
      rw [List.flatMap_cons, List.getD_append_right _ _ _ _ (by rw [hlen]; omega), hlen,
        show (f s).getD p 0 - a - (f k).length = (f s).getD p 0 - (a + (f k).length) by omega]
      exact ih (a + (f k).length) (n - (f k).length) hrest s hsK' p hp

/-! The Feature Engineering Stage claims at station-series level. -/

/-- C1: a single interior missing value whose neighbours one sample away on
each side are known values a and b is filled by the per-station linear
interpolation with the midpoint of a and b, rounded to 4 decimal places. -/
theorem interpolation_fills_interior_midpoint (c : Col) (i : ℕ) (a b : ℚ)
    (ha : c.getD i none = some a) (hm : c.getD (i + 1) none = none)
    (hb : c.getD (i + 2) none = some b) (hlen : i + 2 < c.length) :
    (roundCol (interpolateSeries c)).getD (i + 1) none = some (round4 ((a + b) / 2)) := by
  rw [roundCol_getD, interpolateSeries, getD_map_range _ _ (by omega)]
  unfold interpAt
  rw [hm]
  have hprev : prevKnown c (i + 1) = some (i, a) := by
    unfold prevKnown knownBelow
    rw [List.range_succ, List.filterMap_append,
      show List.filterMap (fun j => (c.getD j none).map fun v => (j, v)) [i] = [(i, a)] by
        simp only [List.filterMap_cons, List.filterMap_nil, ha, Option.map_some'],
      List.getLast?_concat]
  have hnext : nextKnown c (i + 1) = some (i + 2, b) := by
    unfold nextKnown knownAbove
    obtain ⟨k, hk⟩ : ∃ k, c.length - (i + 1 + 1) = k + 1 := ⟨c.length - (i + 2) - 1, by omega⟩
    rw [hk, List.range_succ_eq_map]
    have h0 : i + 1 + 1 + 0 = i + 2 := by omega
    simp only [List.filterMap_cons, h0, hb, Option.map_some']
    rfl
  rw [hprev, hnext]
  simp only [Option.map_some']
  congr 1
  have hn : ((i + 1 : ℕ) : ℚ) - ((i : ℕ) : ℚ) = 1 := by push_cast; ring
  have hd : ((i + 2 : ℕ) : ℚ) - ((i : ℕ) : ℚ) = 2 := by push_cast; ring
  rw [hn, hd]
  congr 1
  ring

/-- C1 witness: neighbours 200 and 220 with one interior gap between them
yield the midpoint 210. -/
theorem interpolation_fills_interior_midpoint_witness :
    (roundCol (interpolateSeries [some 200, none, some 220])).getD 1 none =
        some (round4 ((200 + 220) / 2)) ∧
      round4 ((200 + 220) / 2) = 210 :=
  ⟨interpolation_fills_interior_midpoint [some 200, none, some 220] 0 200 220 rfl rfl rfl
      (by norm_num),
    by rw [show ((200 : ℚ) + 220) / 2 = ((210 : ℤ) : ℚ) by norm_num, round4_intCast]; norm_num⟩

/-- C5: the rolling mean at position p of a station's (fully known) series
is the 4-decimal rounding of the arithmetic mean of the trailing window of
the last at most 7 samples ending at and including position p; with fewer
than 7 samples available the divisor is the actual number of samples (never
a zero-padded window), and no sample after position p enters the value. -/
theorem rolling_mean_trailing_window (st : List ℕ) (c : Col) (s p : ℕ) (ws : List ℚ)
    (hp : p < (groupPositions st s).length)
    (hs : seriesOf st c s = ws.map some) :
    (rollingStep st c).getD ((groupPositions st s).getD p 0) none =
      some (round4 ((((ws.take (p + 1)).drop (p + 1 - 7)).sum) / ((min 7 (p + 1) : ℕ) : ℚ))) := by
  have hrg : (groupPositions st s).getD p 0 ∈ groupPositions st s := getD_mem_of_lt hp
  have hrlt : (groupPositions st s).getD p 0 < st.length := (mem_groupPositions.mp hrg).1
  have hstr : st.getD ((groupPositions st s).getD p 0) 0 = s := (mem_groupPositions.mp hrg).2
  rw [rollingStep, roundCol_getD, getD_map_range _ _ hrlt, hstr,
    findIdx_getD_of_pairwise _ (groupPositions_pairwise st s) p hp, hs]
  have hws : ws.length = (groupPositions st s).length := by
    have h := seriesOf_length st c s
    rw [hs] at h
    simpa using h
  unfold windowVals meanOpt
  rw [← List.map_take, ← List.map_drop, List.filterMap_map]
  have hcomp : (id ∘ (some : ℚ → Option ℚ)) = some ∘ id := rfl
  rw [hcomp, List.filterMap_eq_map, List.map_id]
  have hlen2 : ((ws.take (p + 1)).drop (p + 1 - 7)).length = min 7 (p + 1) := by
    rw [List.length_drop, List.length_take]
    omega
  have hne : ((ws.take (p + 1)).drop (p + 1 - 7)).isEmpty = false := by
    rw [List.isEmpty_eq_false_iff_exists_mem]
    have : 0 < ((ws.take (p + 1)).drop (p + 1 - 7)).length := by omega
    exact List.exists_mem_of_length_pos this
  simp only [hne, Bool.false_eq_true, if_false, Option.map_some', hlen2]

/-- C5 witness: with two samples 2 and 4 in a station, the rolling mean at
the second position is the rounded mean of both samples (divisor 2, not 7),
which evaluates to 3. -/
theorem rolling_mean_trailing_window_witness :
    (rollingStep [1, 1] [some 2, some 4]).getD ((groupPositions [1, 1] 1).getD 1 0) none =
        some (round4 (((([2, 4] : List ℚ).take 2).drop 0).sum / ((min 7 2 : ℕ) : ℚ))) ∧
      (rollingStep [1, 1] [some 2, some 4]).getD 1 none = some 3 := by
  constructor
  · exact rolling_mean_trailing_window [1, 1] [some 2, some 4] 1 1 [2, 4]
      (by simp [groupPositions, List.range_succ])
      (by simp [seriesOf, groupPositions, List.range_succ])
  · simp [rollingStep, roundCol, groupPositions, seriesOf, windowVals, meanOpt,
      List.range_succ, List.findIdx_cons]
    norm_num
    rw [show ((3 : ℚ)) = ((3 : ℤ) : ℚ) by norm_num, round4_intCast]

/-- C6: the lag-1 feature at position p of a station's series is the
(rounded) column value at position p-1 of the same station, and at each
station's first position it is missing — this is the value before the
fill-back pass, which `lagStep` models. -/
theorem lag_is_previous_station_value (st : List ℕ) (c : Col) (s p : ℕ)
    (hp : p < (groupPositions st s).length) :
    (lagStep st c).getD ((groupPositions st s).getD p 0) none =
      if p = 0 then none
      else Option.map round4 (c.getD ((groupPositions st s).getD (p - 1) 0) none) := by
  have hrg : (groupPositions st s).getD p 0 ∈ groupPositions st s := getD_mem_of_lt hp
  have hrlt : (groupPositions st s).getD p 0 < st.length := (mem_groupPositions.mp hrg).1
  have hstr : st.getD ((groupPositions st s).getD p 0) 0 = s := (mem_groupPositions.mp hrg).2
  rw [lagStep, roundCol_getD, getD_map_range _ _ hrlt, hstr,
    findIdx_getD_of_pairwise _ (groupPositions_pairwise st s) p hp]
  by_cases hp0 : p = 0
  · rw [if_pos hp0, if_pos hp0]
    rfl
  · rw [if_neg hp0, if_neg hp0]

/-- C6 witness: in a two-row station with values 3 and 7, the lag at the
second position is the first value 3, and at the first position it is
missing. -/
theorem lag_is_previous_station_value_witness :
    ((lagStep [1, 1] [some 3, some 7]).getD ((groupPositions [1, 1] 1).getD 1 0) none =
        if 1 = 0 then none
        else Option.map round4 (([some 3, some 7] : Col).getD ((groupPositions [1, 1] 1).getD 0 0) none)) ∧
      (lagStep [1, 1] [some 3, some 7]).getD 0 none = none := by
  constructor
  · exact lag_is_previous_station_value [1, 1] [some 3, some 7] 1 1
      (by simp [groupPositions, List.range_succ])
  · simp [lagStep, roundCol, groupPositions, List.range_succ, List.findIdx_cons]

/-- Positional alignment of the interpolation write-back for a
station-sorted table (shared helper). -/
lemma interp_alignment_aux (st : List ℕ) (c : Col) (hsort : st.Sorted (· ≤ ·))
    (s p : ℕ) (hp : p < (groupPositions st s).length) :
    (interpolationStep st c).getD ((groupPositions st s).getD p 0) none =
      Option.map round4 ((interpolateSeries (seriesOf st c s)).getD p none) := by
  have hsK : s ∈ stationKeys st := by
    rw [mem_stationKeys]
    have hmem := mem_groupPositions.mp (getD_mem_of_lt hp)
    rw [← hmem.2]
    exact getD_mem_of_lt hmem.1
  have hE := flatMap_getD_of_partition (groupPositions st)
    (fun s => interpolateSeries (seriesOf st c s))
    (fun s => by rw [interpolateSeries_length, seriesOf_length]) (stationKeys st) 0 st.length
    (by rw [flatMap_groupPositions st hsort, List.range_eq_range']) s hsK p hp
  rw [interpolationStep, roundCol_getD, interpValuesColumn]
  rw [Nat.sub_zero] at hE
  rw [hE]

/-- C10: under the (unchecked) precondition that rows are arranged with each
station's rows contiguous and station blocks in ascending station order —
equivalently, the station column is sorted — the purely positional
write-back of the concatenated groupby-apply output assigns to the row at
position p of station s's group exactly the (rounded) value at position p
of that station's interpolated series. -/
theorem interp_positional_alignment (st : List ℕ) (c : Col) (hsort : st.Sorted (· ≤ ·))
    (s p : ℕ) (hp : p < (groupPositions st s).length) :
    (interpolationStep st c).getD ((groupPositions st s).getD p 0) none =
      Option.map round4 ((interpolateSeries (seriesOf st c s)).getD p none) :=
  interp_alignment_aux st c hsort s p hp

/-- C10 witness: on a station-sorted table with stations 1, 1, 2, row 0 (the
first row of station 1's block) receives position 0 of station 1's
interpolated series; concretely the leading gap is filled with station 1's
own later value 4, not station 2's value. -/
theorem interp_positional_alignment_witness :
    ((interpolationStep [1, 1, 2] [none, some 4, some 9]).getD
          ((groupPositions [1, 1, 2] 1).getD 0 0) none =
        Option.map round4
          ((interpolateSeries (seriesOf [1, 1, 2] [none, some 4, some 9] 1)).getD 0 none)) ∧
      (interpolationStep [1, 1, 2] [none, some 4, some 9]).getD 0 none = some 4 := by
  constructor
  · exact interp_positional_alignment [1, 1, 2] [none, some 4, some 9] (by decide) 1 0
      (by decide)
  · simp [interpolationStep, interpValuesColumn, interpolateSeries, stationKeys,
      groupPositions, seriesOf, roundCol, interpAt, prevKnown, nextKnown, knownBelow,
      knownAbove, List.range_succ, List.findIdx_cons]
    rw [show (4 : ℚ) = ((4 : ℤ) : ℚ) by norm_num, round4_intCast]

/-- C2 (amended): for a station-sorted table, the per-station computations
of the stage before the fill passes are noninterfering across stations: two
input columns that agree on all of station s's rows produce identical
interpolated values, rolling means and lag-1 values at every row of
station s.  (The subsequent table-wide backward/forward fill passes do leak
across stations; see the counterexample.) -/
theorem station_noninterference_before_fills (st : List ℕ) (c₁ c₂ : Col) (s r : ℕ)
    (hsort : st.Sorted (· ≤ ·))
    (hagree : ∀ q ∈ groupPositions st s, c₁.getD q none = c₂.getD q none)
    (hr : r ∈ groupPositions st s) :
    (interpolationStep st c₁).getD r none = (interpolationStep st c₂).getD r none ∧
    (rollingStep st (interpolationStep st c₁)).getD r none =
      (rollingStep st (interpolationStep st c₂)).getD r none ∧
    (lagStep st (interpolationStep st c₁)).getD r none =
      (lagStep st (interpolationStep st c₂)).getD r none := by
  have hser : seriesOf st c₁ s = seriesOf st c₂ s :=
    List.map_congr_left fun q hq => hagree q hq
  have hinterp : ∀ q ∈ groupPositions st s,
      (interpolationStep st c₁).getD q none = (interpolationStep st c₂).getD q none := by
    intro q hq
    obtain ⟨pq, hpq, hq2⟩ := List.getElem_of_mem hq
    have hq3 : (groupPositions st s).getD pq 0 = q := by
      rw [List.getD_eq_getElem _ _ hpq, hq2]
    rw [← hq3, interp_alignment_aux st c₁ hsort s pq hpq,
      interp_alignment_aux st c₂ hsort s pq hpq, hser]
  have hrlt : r < st.length := (mem_groupPositions.mp hr).1
  have hstr : st.getD r 0 = s := (mem_groupPositions.mp hr).2
  refine ⟨hinterp r hr, ?_, ?_⟩
  · have hser2 : seriesOf st (interpolationStep st c₁) s =
        seriesOf st (interpolationStep st c₂) s :=
      List.map_congr_left fun q hq => hinterp q hq
    rw [rollingStep, rollingStep, roundCol_getD, roundCol_getD,
      getD_map_range _ _ hrlt, getD_map_range _ _ hrlt, hstr, hser2]
  · rw [lagStep, lagStep, roundCol_getD, roundCol_getD,
      getD_map_range _ _ hrlt, getD_map_range _ _ hrlt, hstr]
    by_cases h0 : ((groupPositions st s).findIdx fun x => x == r) = 0
    · rw [if_pos h0, if_pos h0]
    · rw [if_neg h0, if_neg h0]
      have hfound : ((groupPositions st s).findIdx fun x => x == r) <
          (groupPositions st s).length := by
        apply List.findIdx_lt_length_of_exists
        exact ⟨r, hr, by simp⟩
      have hmem2 : (groupPositions st s).getD
          ((((groupPositions st s).findIdx fun x => x == r)) - 1) 0 ∈ groupPositions st s :=
        getD_mem_of_lt (by omega)
      rw [hinterp _ hmem2]

/-- C2 counterexample: the claim fails for the whole stage including the
fill passes.  Stations are contiguous and ascending (1, 2, 2); the two
input columns agree on station 1's single row 0 and differ only on
station 2's rows, yet the final lag-1 feature at station 1's row 0 differs
between the two runs: station 2's first lag value is backfilled into
station 1's row. -/
theorem station_noninterference_counterexample :
    (∀ q ∈ groupPositions [1, 2, 2] 1,
        ([some 5, some 10, some 20] : Col).getD q none =
          ([some 5, some 11, some 20] : Col).getD q none) ∧
      (0 : ℕ) ∈ groupPositions [1, 2, 2] 1 ∧
      (processColumn [1, 2, 2] [some 5, some 10, some 20]).2.2.getD 0 none ≠
        (processColumn [1, 2, 2] [some 5, some 11, some 20]).2.2.getD 0 none := by
  have hg : groupPositions [1, 2, 2] 1 = [0] := by decide
  refine ⟨?_, ?_, ?_⟩
  · intro q hq
    rw [hg] at hq
    simp only [List.mem_singleton] at hq
    subst hq
    rfl
  · rw [hg]
    exact List.mem_singleton.mpr rfl
  · have h1 : (processColumn [1, 2, 2] [some 5, some 10, some 20]).2.2.getD 0 none =
        some 10 := by
      simp [processColumn, interpolationStep, interpValuesColumn, interpolateSeries,
        stationKeys, groupPositions, seriesOf, roundCol, interpAt, rollingStep, lagStep,
        bfillCol, ffillCol, prevKnown, nextKnown, knownBelow, knownAbove, windowVals,
        meanOpt, List.range_succ, List.findIdx_cons]
      rw [show (10 : ℚ) = ((10 : ℤ) : ℚ) by norm_num, round4_intCast, round4_intCast,
        round4_intCast, round4_intCast]
    have h2 : (processColumn [1, 2, 2] [some 5, some 11, some 20]).2.2.getD 0 none =
        some 11 := by
      simp [processColumn, interpolationStep, interpValuesColumn, interpolateSeries,
        stationKeys, groupPositions, seriesOf, roundCol, interpAt, rollingStep, lagStep,
        bfillCol, ffillCol, prevKnown, nextKnown, knownBelow, knownAbove, windowVals,
        meanOpt, List.range_succ, List.findIdx_cons]
      rw [show (11 : ℚ) = ((11 : ℤ) : ℚ) by norm_num, round4_intCast, round4_intCast,
        round4_intCast, round4_intCast]
    rw [h1, h2]
    intro h
    have : (10 : ℚ) = 11 := Option.some_injective _ h
    norm_num at this

/-- C2 amended witness: the pre-fill features at station 1's row agree for
the very pair of tables of the counterexample. -/
theorem station_noninterference_before_fills_witness :
    (interpolationStep [1, 2, 2] [some 5, some 10, some 20]).getD 0 none =
        (interpolationStep [1, 2, 2] [some 5, some 11, some 20]).getD 0 none ∧
      (rollingStep [1, 2, 2] (interpolationStep [1, 2, 2] [some 5, some 10, some 20])).getD
          0 none =
        (rollingStep [1, 2, 2] (interpolationStep [1, 2, 2] [some 5, some 11, some 20])).getD
          0 none ∧
      (lagStep [1, 2, 2] (interpolationStep [1, 2, 2] [some 5, some 10, some 20])).getD
          0 none =
        (lagStep [1, 2, 2] (interpolationStep [1, 2, 2] [some 5, some 11, some 20])).getD
          0 none := by
  have hg : groupPositions [1, 2, 2] 1 = [0] := by decide
  refine station_noninterference_before_fills [1, 2, 2] _ _ 1 0 (by decide) ?_ ?_
  · intro q hq
    rw [hg] at hq
    simp only [List.mem_singleton] at hq
    subst hq
    rfl
  · rw [hg]
    exact List.mem_singleton.mpr rfl

lemma getD_map_of_lt {β : Type} (g : List ℕ) (f : ℕ → β) (d : β) {p : ℕ} (hp : p < g.length) :
    (g.map f).getD p d = f (g.getD p 0) := by
  rw [List.getD_eq_getElem _ _ (by simpa using hp), List.getElem_map,
    List.getD_eq_getElem _ _ hp]

lemma roundCol_length (l : Col) : (roundCol l).length = l.length := by
  simp [roundCol]

lemma roundCol_getD_isSome (l : Col) (i : ℕ) :
    ((roundCol l).getD i none).isSome = (l.getD i none).isSome := by
  rw [roundCol_getD]
  cases l.getD i none <;> simp

lemma bfillCol_length (c : Col) : (bfillCol c).length = c.length := by
  simp [bfillCol]

lemma ffillCol_length (c : Col) : (ffillCol c).length = c.length := by
  simp [ffillCol]

lemma rollingStep_length (st : List ℕ) (c : Col) : (rollingStep st c).length = st.length := by
  simp [rollingStep, roundCol]

lemma lagStep_length (st : List ℕ) (c : Col) : (lagStep st c).length = st.length := by
  simp [lagStep, roundCol]

lemma interpolationStep_length (st : List ℕ) (c : Col) (hsort : st.Sorted (· ≤ ·)) :
    (interpolationStep st c).length = st.length := by
  rw [interpolationStep, roundCol_length, interpValuesColumn]
  have h : ((stationKeys st).flatMap fun s => interpolateSeries (seriesOf st c s)).length =
      ((stationKeys st).flatMap fun s => groupPositions st s).length := by
    rw [List.length_flatMap, List.length_flatMap]
    congr 1
    apply List.map_congr_left
    intro s _
    simp only [Function.comp_apply]
    rw [interpolateSeries_length, seriesOf_length]
  rw [h, flatMap_groupPositions st hsort, List.length_range]

lemma prevKnown_ne_none_of_known {c : Col} {j i : ℕ} (hji : j < i) (a : ℚ)
    (ha : c.getD j none = some a) : prevKnown c i ≠ none := by
  have hmem : (j, a) ∈ knownBelow c i := by
    unfold knownBelow
    exact List.mem_filterMap.mpr ⟨j, List.mem_range.mpr hji, by rw [ha]; rfl⟩
  unfold prevKnown
  intro hnone
  rw [List.getLast?_eq_none_iff] at hnone
  rw [hnone] at hmem
  cases hmem

lemma nextKnown_ne_none_of_known {c : Col} {j i : ℕ} (hij : i < j) (hj : j < c.length) (a : ℚ)
    (ha : c.getD j none = some a) : nextKnown c i ≠ none := by
  have hmem : (j, a) ∈ knownAbove c i := by
    unfold knownAbove
    refine List.mem_filterMap.mpr ⟨j - i - 1, List.mem_range.mpr (by omega), ?_⟩
    rw [show i + 1 + (j - i - 1) = j by omega, ha]
    rfl
  unfold nextKnown
  intro hnone
  rw [List.head?_eq_none_iff] at hnone
  rw [hnone] at hmem
  cases hmem

/-- Linear interpolation with both-direction extrapolation leaves no
missing value in a series that has at least one known value. -/
lemma interpolateSeries_isSome {c : Col} {j : ℕ} (hj : j < c.length)
    (hjs : (c.getD j none).isSome) (p : ℕ) (hp : p < c.length) :
    ((interpolateSeries c).getD p none).isSome := by
  rw [interpolateSeries, getD_map_range _ _ hp]
  unfold interpAt
  obtain ⟨a, ha⟩ := Option.isSome_iff_exists.mp hjs
  cases hcp : c.getD p none with
  | some v => simp
  | none =>
    have hne : j ≠ p := by
      intro h
      rw [h, hcp] at ha
      cases ha
    have hor : prevKnown c p ≠ none ∨ nextKnown c p ≠ none := by
      rcases lt_or_gt_of_ne hne with hlt | hgt
      · exact Or.inl (prevKnown_ne_none_of_known hlt a ha)
      · exact Or.inr (nextKnown_ne_none_of_known hgt hj a ha)
    cases hpv : prevKnown c p with
    | some x =>
      obtain ⟨j1, a1⟩ := x
      cases hnv : nextKnown c p with
      | some y => obtain ⟨k1, b1⟩ := y; simp
      | none => simp
    | none =>
      cases hnv : nextKnown c p with
      | some y => obtain ⟨k1, b1⟩ := y; simp
      | none =>
        rw [hpv, hnv] at hor
        rcases hor with h | h <;> exact absurd rfl h

/-- Forward fill makes a position non-missing whenever some position at or
before it is non-missing. -/
lemma ffillCol_isSome {c : Col} {j i : ℕ} (hji : j ≤ i) (hi : i < c.length)
    (hjs : (c.getD j none).isSome) : ((ffillCol c).getD i none).isSome := by
  rw [ffillCol, getD_map_range _ _ hi]
  obtain ⟨a, ha⟩ := Option.isSome_iff_exists.mp hjs
  cases hci : c.getD i none with
  | some v => simp
  | none =>
    have hlt : j < i := by
      rcases Nat.lt_or_ge j i with h | h
      · exact h
      · exfalso
        have : j = i := by omega
        rw [this, hci] at ha
        cases ha
    have hne := prevKnown_ne_none_of_known hlt a ha
    cases hpv : prevKnown c i with
    | none => exact absurd hpv hne
    | some x => simp

/-- Backward fill makes a position non-missing whenever some position at or
after it is non-missing. -/
lemma bfillCol_isSome {c : Col} {j i : ℕ} (hij : i ≤ j) (hj : j < c.length) (hi : i < c.length)
    (hjs : (c.getD j none).isSome) : ((bfillCol c).getD i none).isSome := by
  rw [bfillCol, getD_map_range _ _ hi]
  obtain ⟨a, ha⟩ := Option.isSome_iff_exists.mp hjs
  cases hci : c.getD i none with
  | some v => simp
  | none =>
    have hlt : i < j := by
      rcases Nat.lt_or_ge i j with h | h
      · exact h
      · exfalso
        have : j = i := by omega
        rw [this, hci] at ha
        cases ha
    have hne := nextKnown_ne_none_of_known hlt hj a ha
    cases hnv : nextKnown c i with
    | none => exact absurd hnv hne
    | some x => simp

/-- The step-7 backward fill followed by the step-8 forward fill (with the
interleaved roundings) leaves no missing value in a column that has at
least one known entry. -/
lemma bfill_ffill_isSome {d : Col} {j : ℕ} (hj : j < d.length)
    (hjs : (d.getD j none).isSome) (i : ℕ) (hi : i < d.length) :
    ((roundCol (ffillCol (roundCol (bfillCol d)))).getD i none).isSome := by
  rw [roundCol_getD_isSome]
  have h0 : ((roundCol (bfillCol d)).getD 0 none).isSome := by
    rw [roundCol_getD_isSome]
    exact bfillCol_isSome (Nat.zero_le j) hj (by omega) hjs
  exact ffillCol_isSome (Nat.zero_le i)
    (by rw [roundCol_length, bfillCol_length]; exact hi) h0

/-- C3 counterexample: the zero-missing invariant fails as stated.  On a
table with a single one-row station whose pollutant value is even fully
known, the lag-1 output column of the completed stage (interpolation,
derived-feature backward fill, final forward fill) still contains a missing
value: the single row has no predecessor, the backward fill finds no later
valid value, and the forward fill finds no earlier one. -/
theorem pipeline_zero_missing_counterexample :
    (processColumn [1] [some (5 : ℚ)]).2.2 = [none] := by
  simp [processColumn, interpolationStep, interpValuesColumn, interpolateSeries,
    stationKeys, groupPositions, seriesOf, roundCol, interpAt, rollingStep, lagStep,
    bfillCol, ffillCol, prevKnown, nextKnown, knownBelow, knownAbove, windowVals, meanOpt,
    List.range_succ, List.findIdx_cons]

/-- C3 (amended): for a station-sorted table whose first station block has
at least two rows and at least one known value in the pollutant column, the
completed stage leaves no missing value in the interpolated column, the
rolling-mean column, or the lag-1 column. -/
theorem pipeline_output_no_missing (st : List ℕ) (c : Col)
    (hsort : st.Sorted (· ≤ ·)) (_hlen : c.length = st.length)
    (h2 : 2 ≤ st.length) (hsame : st.getD 1 0 = st.getD 0 0)
    (hknown : ∃ j, j < st.length ∧ st.getD j 0 = st.getD 0 0 ∧ (c.getD j none).isSome)
    (i : ℕ) (hi : i < st.length) :
    ((processColumn st c).1.getD i none).isSome ∧
    ((processColumn st c).2.1.getD i none).isSome ∧
    ((processColumn st c).2.2.getD i none).isSome := by
  obtain ⟨m, hm⟩ : ∃ m, st.length = m + 2 := ⟨st.length - 2, by omega⟩
  have hshape : List.range st.length = 0 :: 1 :: List.range' 2 m := by
    rw [hm, List.range_eq_range']
    rfl
  have hgshape : groupPositions st (st.getD 0 0) =
      0 :: 1 :: ((List.range' 2 m).filter fun r => decide (st.getD r 0 = st.getD 0 0)) := by
    unfold groupPositions
    rw [hshape, List.filter_cons_of_pos (by simp), List.filter_cons_of_pos (by simpa using hsame)]
  have hglen : 2 ≤ (groupPositions st (st.getD 0 0)).length := by
    rw [hgshape]
    simp
  have hg0 : (groupPositions st (st.getD 0 0)).getD 0 0 = 0 := by rw [hgshape]; rfl
  have hg1 : (groupPositions st (st.getD 0 0)).getD 1 0 = 1 := by rw [hgshape]; rfl
  obtain ⟨j, hjlt, hjst, hjs⟩ := hknown
  have hjmem : j ∈ groupPositions st (st.getD 0 0) := mem_groupPositions.mpr ⟨hjlt, hjst⟩
  obtain ⟨pj, hpj, hpj2⟩ := List.getElem_of_mem hjmem
  have hpjD : (groupPositions st (st.getD 0 0)).getD pj 0 = j := by
    rw [List.getD_eq_getElem _ _ hpj, hpj2]
  have hserLen : (seriesOf st c (st.getD 0 0)).length =
      (groupPositions st (st.getD 0 0)).length := seriesOf_length _ _ _
  have hserKnown : ((seriesOf st c (st.getD 0 0)).getD pj none).isSome := by
    unfold seriesOf
    rw [getD_map_of_lt _ _ _ hpj, hpjD]
    exact hjs
  have hciRow : ∀ p, p < (groupPositions st (st.getD 0 0)).length →
      ((interpolationStep st c).getD ((groupPositions st (st.getD 0 0)).getD p 0) none).isSome := by
    intro p hp
    rw [interp_alignment_aux st c hsort _ p hp]
    have hs := interpolateSeries_isSome (c := seriesOf st c (st.getD 0 0))
      (j := pj) (by omega) hserKnown p (by omega)
    cases h : (interpolateSeries (seriesOf st c (st.getD 0 0))).getD p none with
    | none => rw [h] at hs; cases hs
    | some v => simp
  have hci0 : ((interpolationStep st c).getD 0 none).isSome := by
    have h := hciRow 0 (by omega)
    rwa [hg0] at h
  have hciLen : (interpolationStep st c).length = st.length :=
    interpolationStep_length st c hsort
  have hroll0 : ((rollingStep st (interpolationStep st c)).getD 0 none).isSome := by
    rw [rollingStep, roundCol_getD_isSome, getD_map_range _ _ (by omega)]
    have hfi : ((groupPositions st (st.getD 0 0)).findIdx fun x => x == 0) = 0 := by
      rw [hgshape]
      simp [List.findIdx_cons]
    rw [hfi]
    obtain ⟨v, hv⟩ := Option.isSome_iff_exists.mp hci0
    unfold windowVals
    have htake : (seriesOf st (interpolationStep st c) (st.getD 0 0)).take (0 + 1) =
        [some v] := by
      unfold seriesOf
      rw [hgshape]
      simp only [List.map_cons, List.take_succ_cons, List.take_zero]
      rw [hv]
    rw [htake, show (0 : ℕ) + 1 - 7 = 0 from rfl]
    simp [meanOpt]
  have hlag1 : ((lagStep st (interpolationStep st c)).getD 1 none).isSome := by
    rw [lagStep, roundCol_getD_isSome, getD_map_range _ _ (by omega), hsame]
    have hfi : ((groupPositions st (st.getD 0 0)).findIdx fun x => x == 1) = 1 := by
      rw [hgshape]
      simp [List.findIdx_cons]
    rw [hfi, if_neg (by omega), show (1 : ℕ) - 1 = 0 from rfl, hg0]
    exact hci0
  have hrollLen : (rollingStep st (interpolationStep st c)).length = st.length :=
    rollingStep_length _ _
  have hlagLen : (lagStep st (interpolationStep st c)).length = st.length :=
    lagStep_length _ _
  refine ⟨?_, ?_, ?_⟩
  · show ((roundCol (ffillCol (interpolationStep st c))).getD i none).isSome
    rw [roundCol_getD_isSome]
    exact ffillCol_isSome (Nat.zero_le i) (by omega) hci0
  · show ((roundCol (ffillCol (roundCol (bfillCol
        (rollingStep st (interpolationStep st c)))))).getD i none).isSome
    exact bfill_ffill_isSome (by omega) hroll0 i (by omega)
  · show ((roundCol (ffillCol (roundCol (bfillCol
        (lagStep st (interpolationStep st c)))))).getD i none).isSome
    exact bfill_ffill_isSome (by omega) hlag1 i (by omega)

/-- C3 amended witness: a two-row single-station table with known values
has no missing value in any of the three output columns (checked at row 0). -/
theorem pipeline_output_no_missing_witness :
    ((processColumn [1, 1] [some 3, some 4]).1.getD 0 none).isSome ∧
    ((processColumn [1, 1] [some 3, some 4]).2.1.getD 0 none).isSome ∧
    ((processColumn [1, 1] [some 3, some 4]).2.2.getD 0 none).isSome :=
  pipeline_output_no_missing [1, 1] [some 3, some 4] (by decide) rfl (by norm_num) rfl
    ⟨0, by norm_num, rfl, rfl⟩ 0 (by norm_num)

/-! The Dataset Builder claims. -/

/-- C4: the train/test split is chronological and shuffle-free: the train
partition is the initial segment and the test partition the final segment
of the input, together they cover the input exactly, sizes are 80/20 within
one sample, and a 10-sample input puts exactly the last 2 samples in the
test partition. -/
theorem split_chronological {α : Type} (l : List α) :
    (train_test_split l).1 ++ (train_test_split l).2 = l ∧
    (train_test_split l).1 = l.take (l.length - testCount l.length) ∧
    (train_test_split l).2 = l.drop (l.length - testCount l.length) ∧
    (train_test_split l).1.length = l.length - testCount l.length ∧
    (train_test_split l).2.length = testCount l.length ∧
    (4 * l.length - 4 ≤ 5 * (train_test_split l).1.length ∧
      5 * (train_test_split l).1.length ≤ 4 * l.length) ∧
    (l.length = 10 → (train_test_split l).2 = l.drop 8 ∧ (train_test_split l).2.length = 2) := by
  have htc : testCount l.length ≤ l.length := by unfold testCount; omega
  refine ⟨List.take_append_drop _ l, rfl, rfl, ?_, ?_, ?_, ?_⟩
  · rw [train_test_split, List.length_take]
    omega
  · rw [train_test_split, List.length_drop]
    unfold testCount at htc ⊢
    omega
  · constructor <;> (rw [train_test_split, List.length_take]; unfold testCount at htc ⊢; omega)
  · intro h10
    constructor
    · rw [train_test_split, h10]
      norm_num [testCount]
    · rw [train_test_split, List.length_drop, h10]
      norm_num [testCount]

/-- C4 witness: on a concrete 10-sample input the test partition is exactly
the last 2 samples. -/
theorem split_chronological_witness :
    (train_test_split (List.range 10)).2 = (List.range 10).drop 8 ∧
      (train_test_split (List.range 10)).2.length = 2 :=
  (split_chronological (List.range 10)).2.2.2.2.2.2 (by simp)

/-- C7: after the MinMax scaler is fit once on the full column and applied
to it, every element of both the train and the test partition of the scaled
column lies in the closed interval 0..1. -/
theorem scaled_values_in_unit_interval (xs : List ℚ) (y : ℚ)
    (hy : y ∈ (train_test_split (xs.map (mmScale xs))).1 ∨
          y ∈ (train_test_split (xs.map (mmScale xs))).2) :
    0 ≤ y ∧ y ≤ 1 := by
  have hy' : y ∈ xs.map (mmScale xs) := by
    rcases hy with h | h
    · exact List.take_subset _ _ h
    · exact List.drop_subset _ _ h
  rcases List.mem_map.mp hy' with ⟨x, hx, rfl⟩
  have hmin := listMin_le_mem xs x hx
  have hmax := mem_le_listMax xs x hx
  unfold mmScale
  by_cases heq : listMax xs = listMin xs
  · rw [if_pos heq]
    constructor
    · linarith
    · rw [heq] at hmax
      linarith
  · rw [if_neg heq]
    have hlt : listMin xs < listMax xs := lt_of_le_of_ne (le_trans hmin hmax) (Ne.symm heq)
    constructor
    · apply div_nonneg <;> linarith
    · rw [div_le_one (by linarith)]
      linarith

/-- C7 witness: a concrete scaled value from the test partition of the fit
column is in 0..1. -/
theorem scaled_values_in_unit_interval_witness :
    0 ≤ mmScale [1, 3] 3 ∧ mmScale [1, 3] 3 ≤ 1 :=
  scaled_values_in_unit_interval [1, 3] (mmScale [1, 3] 3)
    (Or.inr (by norm_num [train_test_split, testCount, mmScale, listMin, listMax]))

/-- C8: for every value within the fitted range, inverse-transforming the
scaled value through the fitted target scaler reproduces the original value
exactly (hence in particular within 4-decimal rounding tolerance). -/
theorem scaler_inverse_round_trip (xs : List ℚ) (x : ℚ)
    (_h1 : listMin xs ≤ x) (_h2 : x ≤ listMax xs) :
    mmInverse xs (mmScale xs x) = x := by
  unfold mmScale mmInverse
  by_cases heq : listMax xs = listMin xs
  · rw [if_pos heq, if_pos heq]
    ring
  · rw [if_neg heq, if_neg heq]
    have hne : listMax xs - listMin xs ≠ 0 := sub_ne_zero.mpr heq
    field_simp

/-- C8 witness: the round trip at a concrete in-range value. -/
theorem scaler_inverse_round_trip_witness : mmInverse [1, 3] (mmScale [1, 3] 2) = 2 :=
  scaler_inverse_round_trip [1, 3] 2 (by norm_num [listMin, listMax])
    (by norm_num [listMin, listMax])

/-- C9: the feature-engineering stage is a total function that skips a
pollutant column absent from the input (producing no interpolated, rolling
or lag output for it) and processes each present column from its own values
and the station column alone, unaffected by which other columns are
present. -/
theorem absent_column_skipped_present_processed (t₁ t₂ : RawTable) (f : Pollutant)
    (hst : t₁.stations = t₂.stations) (hcol : t₁.cols f = t₂.cols f) :
    (t₁.cols f = none → featureEngineer t₁ f = none) ∧
    (∀ c, t₁.cols f = some c → featureEngineer t₁ f = some (processColumn t₁.stations c)) ∧
    featureEngineer t₁ f = featureEngineer t₂ f := by
  refine ⟨fun h => by simp [featureEngineer, h], fun c h => by simp [featureEngineer, h], ?_⟩
  simp [featureEngineer, hst, hcol]

/-- C9 witness: a table missing the PM2.5 column yields no PM2.5 outputs,
and the result at PM2.5 agrees with a second table that differs in the
other columns. -/
theorem absent_column_skipped_present_processed_witness :
    (featureEngineer ⟨[1], fun f => if f = Pollutant.pm25 then none else some [some 1]⟩
        Pollutant.pm25 = none) ∧
      featureEngineer ⟨[1], fun f => if f = Pollutant.pm25 then none else some [some 1]⟩
          Pollutant.pm25 =
        featureEngineer ⟨[1], fun _ => none⟩ Pollutant.pm25 := by
  have h := absent_column_skipped_present_processed
    ⟨[1], fun f => if f = Pollutant.pm25 then none else some [some 1]⟩
    ⟨[1], fun _ => none⟩ Pollutant.pm25 rfl (by simp)
  exact ⟨h.1 (by simp), h.2.2⟩

end AQNet
